import Mathlib

/-!
Verification of the self-critical captioning trainer (`dcnet_rl.py`).

The sections below give a shallow embedding of the reward criterion, the
self-critical reward shaper, the stringification helpers, the DAE sampling
loop, the caption-encoder validity mask and the beam-search control flow,
together with theorems checking the specified properties.
-/

namespace DCNetRL

/-! ### RewardCriterion (`RewardCriterion.forward`) -/

/-- Per-row mask of `RewardCriterion.forward`: the indicator of `seq > 0`
shifted one step to the right with a leading 1, mirroring
`torch.cat([mask.new(B, 1).fill_(1), mask[:, :-1]], 1)`. -/
def maskRow (row : List ℕ) : List ℚ :=
  (1 : ℚ) :: (row.map (fun t => if 0 < t then (1 : ℚ) else 0)).dropLast

/-- `torch.sum(mask)` over the whole batch. -/
def rcMaskSum (seq : List (List ℕ)) : ℚ :=
  ((seq.map maskRow).flatten).sum

/-- Elementwise triple product followed by a sum, as in
`torch.sum(sample_logprobs * reward * mask)`. -/
def mulSum3 (a b c : List ℚ) : ℚ :=
  (List.zipWith (· * ·) (List.zipWith (· * ·) a b) c).sum

/-- `RewardCriterion.forward`: flatten the inputs, build the shifted mask,
and return `-sum(logprob * reward * mask) / sum(mask)`. -/
def rewardCriterion (lp : List (List ℚ)) (seq : List (List ℕ)) (reward : List (List ℚ)) : ℚ :=
  - mulSum3 lp.flatten reward.flatten ((seq.map maskRow).flatten) / rcMaskSum seq

/-- Mask as worded by the spec: the row has one entry per timestep,
with the first entry 1 and entry `t ≥ 1` the indicator of `seq[t-1] > 0`. -/
def specMaskRow (row : List ℕ) : List ℚ :=
  (List.range row.length).map
    (fun t => if t = 0 then (1 : ℚ) else if 0 < row.getD (t - 1) 0 then 1 else 0)

/-- Loss as worded by the spec, using the spec-side mask. -/
def specLoss (lp : List (List ℚ)) (seq : List (List ℕ)) (reward : List (List ℚ)) : ℚ :=
  - mulSum3 lp.flatten reward.flatten ((seq.map specMaskRow).flatten) /
    ((seq.map specMaskRow).flatten).sum

theorem mapRange_getD {α : Type} (f : ℕ → α) (n i : ℕ) (d : α) (h : i < n) :
    ((List.range n).map f).getD i d = f i := by
  rw [List.getD_eq_getElem _ _ (by simpa using h)]
  simp

theorem mapRange_getD_eq_take {α : Type} (g : ℕ → α) (d : ℕ) (l : List ℕ) (n : ℕ)
    (h : n ≤ l.length) :
    (List.range n).map (fun t => g (l.getD t d)) = (l.take n).map g := by
  apply List.ext_getElem
  · simp [Nat.min_eq_left h]
  · intro i h1 h2
    have hi : i < n := by simpa using h1
    have hil : i < l.length := lt_of_lt_of_le hi h
    simp only [List.getElem_map, List.getElem_range, List.getElem_take]
    rw [List.getD_eq_getElem _ _ hil]

theorem maskRow_eq_specMaskRow (row : List ℕ) (h : row ≠ []) :
    maskRow row = specMaskRow row := by
  have hlen : 1 ≤ row.length := List.length_pos.2 h
  apply List.ext_getElem
  · simp only [maskRow, specMaskRow, List.length_cons, List.length_dropLast,
      List.length_map, List.length_range]
    omega
  · intro i h1 h2
    have hi : i < row.length := by
      simpa only [specMaskRow, List.length_map, List.length_range] using h2
    simp only [maskRow, specMaskRow, List.getElem_map, List.getElem_range]
    cases i with
    | zero => simp
    | succ j =>
      rw [List.getElem_cons_succ, List.getElem_dropLast, List.getElem_map]
      simp only [Nat.succ_ne_zero, if_false, Nat.add_sub_cancel]
      rw [List.getD_eq_getElem _ _ (by omega : j < row.length)]

/-- Claim C1: `RewardCriterion.forward` returns
`-sum(logprob * advantage * mask) / sum(mask)` where the mask is the
`seq > 0` indicator shifted one step right with a leading 1; on
`seq = [5,7,0,0]` the shifted mask is `[1,1,1,0]`. -/
theorem rewardCriterion_spec :
    (∀ (lp : List (List ℚ)) (seq : List (List ℕ)) (reward : List (List ℚ)),
      (∀ row ∈ seq, row ≠ []) →
      rewardCriterion lp seq reward = specLoss lp seq reward) ∧
    maskRow [5, 7, 0, 0] = [1, 1, 1, 0] ∧
    specMaskRow [5, 7, 0, 0] = [1, 1, 1, 0] := by
  refine ⟨?_, by decide, by decide⟩
  intro lp seq reward h
  have hm : seq.map maskRow = seq.map specMaskRow :=
    List.map_congr_left (fun row hr => maskRow_eq_specMaskRow row (h row hr))
  unfold rewardCriterion specLoss rcMaskSum
  rw [hm]

/-- Witness for C1 at a concrete batch. -/
theorem rewardCriterion_spec_witness :
    rewardCriterion [[1, 2]] [[5, 0]] [[3, 3]] = specLoss [[1, 2]] [[5, 0]] [[3, 3]] :=
  rewardCriterion_spec.1 [[1, 2]] [[5, 0]] [[3, 3]] (by decide)

theorem one_le_maskRow_sum (row : List ℕ) : 1 ≤ (maskRow row).sum := by
  unfold maskRow
  rw [List.sum_cons]
  have : 0 ≤ ((row.map (fun t => if 0 < t then (1 : ℚ) else 0)).dropLast).sum := by
    apply List.sum_nonneg
    intro x hx
    obtain ⟨t, _, rfl⟩ := List.mem_map.1 (List.dropLast_subset _ hx)
    split <;> norm_num
  linarith

theorem length_le_rcMaskSum (seq : List (List ℕ)) :
    (seq.length : ℚ) ≤ rcMaskSum seq := by
  induction seq with
  | nil => simp [rcMaskSum]
  | cons r rest ih =>
    have h1 := one_le_maskRow_sum r
    have : rcMaskSum (r :: rest) = (maskRow r).sum + rcMaskSum rest := by
      simp [rcMaskSum]
    rw [this, List.length_cons]
    push_cast
    linarith

/-- Claim C9: the shifted mask's first column is all ones, so
`sum(mask)` is at least the batch size and the division in
`RewardCriterion.forward` never divides by zero. -/
theorem rcMaskSum_pos (seq : List (List ℕ)) (h : seq ≠ []) :
    (∀ row ∈ seq, (maskRow row).getD 0 0 = 1) ∧
    (seq.length : ℚ) ≤ rcMaskSum seq ∧ 0 < rcMaskSum seq ∧ rcMaskSum seq ≠ 0 := by
  refine ⟨fun row _ => rfl, length_le_rcMaskSum seq, ?_, ?_⟩
  · have h1 : 1 ≤ seq.length := List.length_pos.2 h
    have := length_le_rcMaskSum seq
    have : (1 : ℚ) ≤ rcMaskSum seq := by
      calc (1 : ℚ) ≤ (seq.length : ℚ) := by exact_mod_cast h1
        _ ≤ rcMaskSum seq := length_le_rcMaskSum seq
    linarith
  · have h1 : 1 ≤ seq.length := List.length_pos.2 h
    have : (1 : ℚ) ≤ rcMaskSum seq := by
      calc (1 : ℚ) ≤ (seq.length : ℚ) := by exact_mod_cast h1
        _ ≤ rcMaskSum seq := length_le_rcMaskSum seq
    linarith

/-- Witness for C9 at a concrete all-zero sequence batch. -/
theorem rcMaskSum_pos_witness :
    (∀ row ∈ [[0, 0], [0, 0]], (maskRow row).getD 0 0 = 1) ∧
    ((2 : ℚ) ≤ rcMaskSum [[0, 0], [0, 0]] ∧
      0 < rcMaskSum [[0, 0], [0, 0]] ∧ rcMaskSum [[0, 0], [0, 0]] ≠ 0) := by
  have h := rcMaskSum_pos [[0, 0], [0, 0]] (by decide)
  exact ⟨h.1, by exact_mod_cast h.2.1, h.2.2.1, h.2.2.2⟩

/-! ### Stringification (`array_to_str`, `preprocess_gd`) -/

/-- Python `str.strip()`: drop whitespace from both ends. -/
def pyStrip (s : String) : String :=
  ⟨((s.data.dropWhile Char.isWhitespace).reverse.dropWhile Char.isWhitespace).reverse⟩

/-- The accumulation loop of `array_to_str`: append `str(arr[i]) + ' '` and
break right after the first 0. -/
def arrayToStrLoop : List ℕ → String
  | [] => ""
  | a :: rest => Nat.repr a ++ " " ++ (if a = 0 then "" else arrayToStrLoop rest)

/-- `array_to_str`: run the loop, then `.strip()`. -/
def array_to_str (arr : List ℕ) : String :=
  pyStrip (arrayToStrLoop arr)

/-- `preprocess_gd`: for each image, drop `<start>`/`<pad>` ids from each
caption, then rewrite `<end>` to 0. -/
def preprocess_gd (allcaps : List (List (List ℕ))) (st pd en : ℕ) : List (List (List ℕ)) :=
  allcaps.map (fun imgCaps =>
    (imgCaps.map (fun c => c.filter (fun w => !(w == st || w == pd)))).map
      (fun c => c.map (fun w => if w == en then 0 else w)))

/-- The prefix of a sequence up to and including its first 0. -/
def upToFirstZeroIncl : List ℕ → List ℕ
  | [] => []
  | a :: rest => a :: (if a = 0 then [] else upToFirstZeroIncl rest)

/-- Whitespace-joined decimal ids, as the spec words the scoring string. -/
def strOfIds : List ℕ → String
  | [] => ""
  | [a] => Nat.repr a
  | a :: rest => Nat.repr a ++ " " ++ strOfIds rest

theorem digitChar_not_ws : ∀ (k : ℕ), (Nat.digitChar k).isWhitespace = false
  | 0 => by decide
  | 1 => by decide
  | 2 => by decide
  | 3 => by decide
  | 4 => by decide
  | 5 => by decide
  | 6 => by decide
  | 7 => by decide
  | 8 => by decide
  | 9 => by decide
  | 10 => by decide
  | 11 => by decide
  | 12 => by decide
  | 13 => by decide
  | 14 => by decide
  | 15 => by decide
  | (m + 16) => by
    unfold Nat.digitChar
    repeat rw [if_neg (by omega)]
    decide

theorem toDigitsCore_succ (f n : ℕ) (acc : List Char) :
    Nat.toDigitsCore 10 (f + 1) n acc =
      if n / 10 = 0 then Nat.digitChar (n % 10) :: acc
      else Nat.toDigitsCore 10 f (n / 10) (Nat.digitChar (n % 10) :: acc) := rfl

theorem toDigitsCore_length (fuel n : ℕ) (acc : List Char) :
    acc.length ≤ (Nat.toDigitsCore 10 fuel n acc).length := by
  induction fuel generalizing n acc with
  | zero => simp [Nat.toDigitsCore]
  | succ f ih =>
    rw [toDigitsCore_succ]
    split
    · simp
    · exact le_trans (by simp) (ih _ _)

theorem toDigitsCore_not_ws (fuel n : ℕ) (acc : List Char)
    (hacc : ∀ c ∈ acc, c.isWhitespace = false) :
    ∀ c ∈ Nat.toDigitsCore 10 fuel n acc, c.isWhitespace = false := by
  induction fuel generalizing n acc with
  | zero => simpa [Nat.toDigitsCore] using hacc
  | succ f ih =>
    rw [toDigitsCore_succ]
    split
    · intro c hc
      rcases List.mem_cons.1 hc with rfl | hc
      · exact digitChar_not_ws _
      · exact hacc c hc
    · refine ih _ _ ?_
      intro c hc
      rcases List.mem_cons.1 hc with rfl | hc
      · exact digitChar_not_ws _
      · exact hacc c hc

theorem repr_data_ne_nil (n : ℕ) : (Nat.repr n).data ≠ [] := by
  have h : 1 ≤ (Nat.toDigitsCore 10 (n + 1) n []).length := by
    rw [toDigitsCore_succ]
    split
    · simp
    · exact le_trans (by simp) (toDigitsCore_length _ _ _)
  intro hnil
  have h2 : (Nat.toDigitsCore 10 (n + 1) n []).length = 0 := by
    have hd : (Nat.repr n).data = Nat.toDigitsCore 10 (n + 1) n [] := rfl
    rw [← hd, hnil]
    rfl
  omega

theorem repr_data_not_ws (n : ℕ) : ∀ c ∈ (Nat.repr n).data, c.isWhitespace = false := by
  show ∀ c ∈ Nat.toDigits 10 n, c.isWhitespace = false
  exact toDigitsCore_not_ws _ _ _ (by simp)

/-- Both edges of a character list are non-whitespace. -/
def EdgeOk (d : List Char) : Prop :=
  (∀ c, d.head? = some c → c.isWhitespace = false) ∧
  (∀ c, d.getLast? = some c → c.isWhitespace = false)

theorem edgeOk_repr (n : ℕ) : EdgeOk (Nat.repr n).data := by
  constructor
  · intro c hc
    exact repr_data_not_ws n c (List.mem_of_mem_head? hc)
  · intro c hc
    exact repr_data_not_ws n c (List.mem_of_mem_getLast? hc)

theorem strOfIds_cons_cons (a b : ℕ) (t : List ℕ) :
    strOfIds (a :: b :: t) = Nat.repr a ++ " " ++ strOfIds (b :: t) := rfl

theorem upToFirstZeroIncl_cons (a : ℕ) (rest : List ℕ) :
    upToFirstZeroIncl (a :: rest) = a :: (if a = 0 then [] else upToFirstZeroIncl rest) := rfl

theorem arrayToStrLoop_cons (a : ℕ) (rest : List ℕ) :
    arrayToStrLoop (a :: rest)
      = Nat.repr a ++ " " ++ (if a = 0 then "" else arrayToStrLoop rest) := rfl

theorem strOfIds_data_ne_nil : ∀ (a : ℕ) (rest : List ℕ),
    (strOfIds (a :: rest)).data ≠ []
  | a, [] => repr_data_ne_nil a
  | a, b :: t => by
    rw [strOfIds_cons_cons]
    simp only [String.data_append]
    intro hnil
    rcases List.append_eq_nil.1 hnil with ⟨h1, _⟩
    rcases List.append_eq_nil.1 h1 with ⟨h2, _⟩
    exact repr_data_ne_nil a h2

theorem edgeOk_strOfIds : ∀ (l : List ℕ), EdgeOk (strOfIds l).data
  | [] => by constructor <;> intro c hc <;> simp [strOfIds] at hc
  | [a] => edgeOk_repr a
  | a :: b :: t => by
    have ih := edgeOk_strOfIds (b :: t)
    have hrepr := edgeOk_repr a
    constructor
    · intro c hc
      obtain ⟨c0, d0, hcd⟩ := List.exists_cons_of_ne_nil (repr_data_ne_nil a)
      rw [strOfIds_cons_cons, String.data_append, String.data_append, hcd,
        List.cons_append, List.cons_append, List.head?_cons] at hc
      simp only [Option.some.injEq] at hc
      subst hc
      exact hrepr.1 c0 (by rw [hcd]; rfl)
    · intro c hc
      rw [strOfIds_cons_cons, String.data_append, List.getLast?_append] at hc
      rcases ho : (strOfIds (b :: t)).data.getLast? with _ | c1
      · exact absurd (List.getLast?_eq_none_iff.1 ho) (strOfIds_data_ne_nil b t)
      · rw [ho, Option.or_some] at hc
        simp only [Option.some.injEq] at hc
        subst hc
        exact ih.2 c1 ho

theorem arrayToStrLoop_data : ∀ (l : List ℕ), l ≠ [] →
    (arrayToStrLoop l).data = (strOfIds (upToFirstZeroIncl l)).data ++ [' ']
  | [], h => absurd rfl h
  | [a], _ => by
    rw [arrayToStrLoop_cons, upToFirstZeroIncl_cons]
    have h1 : (if a = 0 then "" else arrayToStrLoop []) = "" := by split <;> rfl
    have h2 : (if a = 0 then ([] : List ℕ) else upToFirstZeroIncl []) = [] := by
      split <;> rfl
    rw [h1, h2]
    show ((Nat.repr a).data ++ [' '] ++ []) = (Nat.repr a).data ++ [' ']
    simp
  | a :: b :: t, _ => by
    rw [arrayToStrLoop_cons, upToFirstZeroIncl_cons]
    by_cases ha : a = 0
    · rw [if_pos ha, if_pos ha]
      show ((Nat.repr a).data ++ [' '] ++ []) = (Nat.repr a).data ++ [' ']
      simp
    · rw [if_neg ha, if_neg ha]
      have ih := arrayToStrLoop_data (b :: t) (by simp)
      rw [upToFirstZeroIncl_cons b t, strOfIds_cons_cons, String.data_append,
        String.data_append, String.data_append, String.data_append, ih,
        upToFirstZeroIncl_cons b t]
      simp

theorem dropWhile_eq_self_of_head (l : List Char)
    (h : ∀ c, l.head? = some c → c.isWhitespace = false) :
    l.dropWhile Char.isWhitespace = l := by
  cases l with
  | nil => rfl
  | cons c d =>
    rw [List.dropWhile_cons]
    simp [h c rfl]

theorem pyStrip_append_space (d : List Char) (h : EdgeOk d) :
    pyStrip ⟨d ++ [' ']⟩ = ⟨d⟩ := by
  cases d with
  | nil => rfl
  | cons c d' =>
    have hc : Char.isWhitespace c = false := h.1 c rfl
    have key : ((((c :: d') ++ [' ']).dropWhile Char.isWhitespace).reverse.dropWhile
        Char.isWhitespace).reverse = c :: d' := by
      rw [List.cons_append, List.dropWhile_cons]
      simp only [hc, Bool.false_eq_true, if_false]
      rw [← List.cons_append, List.reverse_append, List.reverse_singleton,
        List.singleton_append, List.dropWhile_cons]
      simp only [show Char.isWhitespace ' ' = true from rfl, if_true]
      rw [dropWhile_eq_self_of_head ((c :: d').reverse) (by
          intro e he
          rw [List.head?_reverse] at he
          exact h.2 e he),
        List.reverse_reverse]
    show (⟨((((c :: d') ++ [' ']).dropWhile Char.isWhitespace).reverse.dropWhile
        Char.isWhitespace).reverse⟩ : String) = (⟨c :: d'⟩ : String)
    rw [key]

theorem pyStrip_congr_data (s : String) : pyStrip ⟨s.data⟩ = pyStrip s := by
  cases s
  rfl

/-- The claim's reading of `array_to_str` (ids strictly before the first 0). -/
def strOfIdsExcl (arr : List ℕ) : String :=
  strOfIds (arr.takeWhile (fun w => w != 0))

/-- Claim C4 counterexample: `array_to_str` keeps the first 0 in the string,
so on `[3,4,0,0]` it yields the string with the marker, not the string of ids
strictly before the marker. -/
theorem array_to_str_keeps_marker :
    array_to_str [3, 4, 0, 0] = "3 4 0" ∧
    strOfIdsExcl [3, 4, 0, 0] = "3 4" ∧
    array_to_str [3, 4, 0, 0] ≠ strOfIdsExcl [3, 4, 0, 0] := by
  refine ⟨?_, ?_, ?_⟩ <;> decide

/-- Claim C4 (amended): the scoring string is the whitespace-joined ids up to
and including the first 0; `array_to_str` only depends on that prefix, and
`preprocess_gd` strips `<start>`/`<pad>` and rewrites `<end>` to 0 before the
same stringification. -/
theorem array_to_str_spec :
    (∀ arr : List ℕ, array_to_str arr = strOfIds (upToFirstZeroIncl arr)) ∧
    (∀ l1 l2 : List ℕ, upToFirstZeroIncl l1 = upToFirstZeroIncl l2 →
      array_to_str l1 = array_to_str l2) ∧
    (∀ (allcaps : List (List (List ℕ))) (st pd en : ℕ),
      preprocess_gd allcaps st pd en = allcaps.map (fun imgCaps =>
        imgCaps.map (fun c =>
          (c.filter (fun w => !(w == st || w == pd))).map
            (fun w => if w == en then 0 else w)))) := by
  have hmain : ∀ arr : List ℕ, array_to_str arr = strOfIds (upToFirstZeroIncl arr) := by
    intro arr
    cases arr with
    | nil => rfl
    | cons a rest =>
      unfold array_to_str
      have hd := arrayToStrLoop_data (a :: rest) (by simp)
      calc pyStrip (arrayToStrLoop (a :: rest))
          = pyStrip ⟨(arrayToStrLoop (a :: rest)).data⟩ := (pyStrip_congr_data _).symm
        _ = pyStrip ⟨(strOfIds (upToFirstZeroIncl (a :: rest))).data ++ [' ']⟩ := by rw [hd]
        _ = ⟨(strOfIds (upToFirstZeroIncl (a :: rest))).data⟩ :=
            pyStrip_append_space _ (edgeOk_strOfIds _)
        _ = strOfIds (upToFirstZeroIncl (a :: rest)) := by
            cases h : strOfIds (upToFirstZeroIncl (a :: rest))
            rfl
  refine ⟨hmain, ?_, ?_⟩
  · intro l1 l2 h
    rw [hmain l1, hmain l2, h]
  · intro allcaps st pd en
    unfold preprocess_gd
    apply List.map_congr_left
    intro imgCaps _
    rw [List.map_map]
    rfl

/-- Witness for the amended C4 at a concrete pair of sequences. -/
theorem array_to_str_spec_witness :
    array_to_str [3, 0, 9] = array_to_str [3, 0, 7] :=
  array_to_str_spec.2.1 [3, 0, 9] [3, 0, 7] (by decide)

/-! ### Self-critical reward (`get_self_critical_reward`) -/

/-- `get_self_critical_reward`, with the corpus scorer abstracted as a pure
function of a reference string set and a hypothesis string.  Entry `i` of
the shared scoring call holds the sampled hypothesis for `i < B` and the
greedy hypothesis for `B ≤ i < 2B`; entry `i` is paired with reference set
`i % B`; the per-sequence difference is repeated over all columns. -/
def getSelfCriticalReward (metric : List String → String → ℚ) (ciderWeight : ℚ)
    (genResult greedyRes : List (List ℕ)) (groundTruth : List (List (List ℕ))) :
    List (List ℚ) :=
  let B := genResult.length
  let res : ℕ → String := fun i =>
    if i < B then array_to_str (genResult.getD i [])
    else array_to_str (greedyRes.getD (i - B) [])
  let gts : ℕ → List String := fun i => (groundTruth.getD (i % B) []).map array_to_str
  let scores : ℕ → ℚ := fun i => ciderWeight * metric (gts i) (res i)
  (List.range B).map (fun i =>
    List.replicate (genResult.getD 0 []).length (scores i - scores (B + i)))

/-- Claim C2: row `i` of the reward tensor is the scalar
`metric(sampled[i], refs[i]) - metric(greedy[i], refs[i])` broadcast over
all `max_len` columns, with hypotheses `i` and `B + i` of the shared
scoring call paired with the same reference set `i`. -/
theorem getSelfCriticalReward_spec (metric : List String → String → ℚ)
    (genResult greedyRes : List (List ℕ)) (groundTruth : List (List (List ℕ)))
    (i : ℕ) (hi : i < genResult.length) :
    (getSelfCriticalReward metric 1 genResult greedyRes groundTruth).getD i [] =
      List.replicate (genResult.getD 0 []).length
        (metric ((groundTruth.getD i []).map array_to_str)
            (array_to_str (genResult.getD i [])) -
         metric ((groundTruth.getD i []).map array_to_str)
            (array_to_str (greedyRes.getD i []))) := by
  unfold getSelfCriticalReward
  rw [mapRange_getD _ _ _ _ hi]
  have h1 : i % genResult.length = i := Nat.mod_eq_of_lt hi
  have h2 : (genResult.length + i) % genResult.length = i := by
    rw [Nat.add_mod_left]
    exact h1
  have h3 : ¬(genResult.length + i < genResult.length) := by omega
  have h4 : genResult.length + i - genResult.length = i := by omega
  simp only [one_mul]
  rw [if_pos hi, if_neg h3, h1, h2, h4]

/-- Witness for C2 at a concrete batch with a concrete scorer. -/
theorem getSelfCriticalReward_spec_witness :
    (getSelfCriticalReward (fun g h => (g.length : ℚ) + h.length) 1
        [[3, 0]] [[4, 0]] [[[5, 0]]]).getD 0 [] =
      List.replicate ([[3, 0]].getD 0 []).length
        ((fun (g : List String) (h : String) => (g.length : ℚ) + h.length)
            (([[[5, 0]]].getD 0 []).map array_to_str)
            (array_to_str ([[3, 0]].getD 0 [])) -
         (fun (g : List String) (h : String) => (g.length : ℚ) + h.length)
            (([[[5, 0]]].getD 0 []).map array_to_str)
            (array_to_str ([[4, 0]].getD 0 []))) :=
  getSelfCriticalReward_spec (fun g h => (g.length : ℚ) + h.length)
    [[3, 0]] [[4, 0]] [[[5, 0]]] 0 (by decide)

/-! ### DAE sampling loop (`DAE.forward`)

The recurrent network is abstracted per batch row: the greedy (argmax) and
multinomial choices, and their log-probabilities, are arbitrary functions of
the history of stored tokens (which determines the hidden state).  The
end-token rewriting, the `unfinished` flag, the forced zeros, the
unconditional log-probability store and the all-finished early break are
embedded from the source. -/

/-- One batch row of the abstracted decoder. -/
structure RowModel where
  gTok : List ℕ → ℕ
  gLp : List ℕ → ℚ
  sTok : List ℕ → ℕ
  sLp : List ℕ → ℚ

/-- Token/log-probability selection for one timestep: `if sample_max` runs
first, `if sample_rl` runs second and overwrites its result. -/
def rowChoice (sampleMax sampleRl : Bool) (r : RowModel) (hist : List ℕ) : ℕ × ℚ :=
  let p0 : ℕ × ℚ := (0, 0)
  let p1 := if sampleMax then (r.gTok hist, r.gLp hist) else p0
  if sampleRl then (r.sTok hist, r.sLp hist) else p1

/-- Per-row loop state: stored tokens, stored log-probabilities,
`unfinished` flag. -/
structure RowState where
  hist : List ℕ
  lps : List ℚ
  unfinished : Bool

/-- The chosen token after `it[it == word_map['<end>']] = 0`. -/
def rowTok1 (endIdx : ℕ) (choice : List ℕ → ℕ × ℚ) (hist : List ℕ) : ℕ :=
  if (choice hist).1 = endIdx then 0 else (choice hist).1

/-- The updated `unfinished` flag: fresh at timestep 0, ANDed with
`it > 0` afterwards. -/
def rowUnf (endIdx t : ℕ) (choice : List ℕ → ℕ × ℚ) (s : RowState) : Bool :=
  if t = 0 then decide (0 < rowTok1 endIdx choice s.hist)
  else s.unfinished && decide (0 < rowTok1 endIdx choice s.hist)

/-- One timestep of `DAE.forward` for one row: rewrite a chosen `<end>` to 0,
update `unfinished`, force the stored token to 0 once finished
(`it = it * unfinished`), and store the log-probability unconditionally. -/
def rowStep (endIdx t : ℕ) (choice : List ℕ → ℕ × ℚ) (s : RowState) : RowState :=
  ⟨s.hist ++ [if rowUnf endIdx t choice s then rowTok1 endIdx choice s.hist else 0],
   s.lps ++ [(choice s.hist).2],
   rowUnf endIdx t choice s⟩

/-- The timestep loop of `DAE.forward`, with the early break once every
row has finished. -/
def daeLoop (endIdx : ℕ) (choices : List (List ℕ → ℕ × ℚ)) :
    ℕ → ℕ → List RowState → List RowState
  | _, 0, states => states
  | t, fuel + 1, states =>
    let states' := List.zipWith (fun c s => rowStep endIdx t c s) choices states
    if states'.all (fun s => !s.unfinished) then states'
    else daeLoop endIdx choices (t + 1) fuel states'

/-- Zero-pad a token row to the fixed generation length. -/
def padTo (n : ℕ) (l : List ℕ) : List ℕ := l ++ List.replicate (n - l.length) 0

/-- Zero-pad a log-probability row to the fixed generation length. -/
def padToQ (n : ℕ) (l : List ℚ) : List ℚ := l ++ List.replicate (n - l.length) 0

/-- `DAE.forward`: run the loop from all-`<start>` histories and zero-filled
`seq`/`seqLogprobs` tensors, returning the stored sequences and
log-probabilities. -/
def daeForward (endIdx maxLen : ℕ) (sampleMax sampleRl : Bool) (rows : List RowModel) :
    List (List ℕ) × List (List ℚ) :=
  let states := daeLoop endIdx (rows.map (rowChoice sampleMax sampleRl)) 0 maxLen
    (rows.map (fun _ => ⟨[], [], true⟩))
  (states.map (fun s => padTo maxLen s.hist), states.map (fun s => padToQ maxLen s.lps))

/-- Once a row of the output holds 0, all later positions hold 0. -/
def ZeroTail (l : List ℕ) : Prop :=
  ∀ i j, i ≤ j → j < l.length → l.getD i 0 = 0 → l.getD j 0 = 0

/-- Invariant of a row state: the stored history is a block of nonzero
tokens followed by a block of zeros, and the zero block is empty while the
row is unfinished. -/
def RowInv (s : RowState) : Prop :=
  ∃ a b : List ℕ, s.hist = a ++ b ∧ (∀ x ∈ a, x ≠ 0) ∧ (∀ x ∈ b, x = 0) ∧
    (s.unfinished = true → b = [])

theorem zeroTail_append (a z : List ℕ) (ha : ∀ x ∈ a, x ≠ 0) (hz : ∀ x ∈ z, x = 0) :
    ZeroTail (a ++ z) := by
  intro i j hij hj h0
  have hia : ¬(i < a.length) := by
    intro hlt
    rw [List.getD_append _ _ _ _ hlt, List.getD_eq_getElem _ _ hlt] at h0
    exact ha _ (List.getElem_mem hlt) h0
  have hja : a.length ≤ j := le_trans (Nat.le_of_not_lt hia) hij
  rw [List.getD_append_right _ _ _ _ hja]
  have hjz : j - a.length < z.length := by
    rw [List.length_append] at hj
    omega
  rw [List.getD_eq_getElem _ _ hjz]
  exact hz _ (List.getElem_mem hjz)

theorem rowInv_padTo (s : RowState) (n : ℕ) (h : RowInv s) :
    ZeroTail (padTo n s.hist) := by
  obtain ⟨a, b, hab, ha, hb, _⟩ := h
  unfold padTo
  rw [hab, List.append_assoc]
  apply zeroTail_append a (b ++ List.replicate (n - (a ++ b).length) 0) ha
  intro x hx
  rcases List.mem_append.1 hx with hx | hx
  · exact hb x hx
  · exact List.eq_of_mem_replicate hx

theorem rowStep_inv (endIdx t : ℕ) (c : List ℕ → ℕ × ℚ) (s : RowState)
    (h : RowInv s) (h0 : t = 0 → s.unfinished = true) :
    RowInv (rowStep endIdx t c s) := by
  obtain ⟨a, b, hab, ha, hb, hbe⟩ := h
  by_cases hu : s.unfinished = true
  · have hbnil : b = [] := hbe hu
    subst hbnil
    rw [List.append_nil] at hab
    have hunf : rowUnf endIdx t c s = decide (0 < rowTok1 endIdx c s.hist) := by
      unfold rowUnf
      rcases Nat.eq_zero_or_pos t with rfl | ht
      · rw [if_pos rfl]
      · rw [if_neg (by omega), hu, Bool.true_and]
    by_cases hpos : 0 < rowTok1 endIdx c s.hist
    · refine ⟨a ++ [rowTok1 endIdx c s.hist], [], ?_, ?_, by simp, fun _ => rfl⟩
      · show s.hist ++ [if rowUnf endIdx t c s then rowTok1 endIdx c s.hist else 0]
            = a ++ [rowTok1 endIdx c s.hist] ++ []
        rw [hunf, if_pos (by simpa using hpos), hab, List.append_nil]
      · intro x hx
        rcases List.mem_append.1 hx with hx | hx
        · exact ha x hx
        · rw [List.mem_singleton.1 hx]
          omega
    · refine ⟨a, [0], ?_, ha, by simp, ?_⟩
      · show s.hist ++ [if rowUnf endIdx t c s then rowTok1 endIdx c s.hist else 0]
            = a ++ [0]
        rw [hunf, if_neg (by simpa using hpos), hab]
      · intro hcontra
        have : rowUnf endIdx t c s = true := hcontra
        rw [hunf] at this
        exact absurd (of_decide_eq_true this) hpos
  · have ht : ¬(t = 0) := fun he => hu (h0 he)
    have hunf : rowUnf endIdx t c s = false := by
      unfold rowUnf
      rw [if_neg ht, Bool.eq_false_iff.2 hu, Bool.false_and]
    refine ⟨a, b ++ [0], ?_, ha, ?_, ?_⟩
    · show s.hist ++ [if rowUnf endIdx t c s then rowTok1 endIdx c s.hist else 0]
          = a ++ (b ++ [0])
      rw [hunf, if_neg (by simp), hab, List.append_assoc]
    · intro x hx
      rcases List.mem_append.1 hx with hx | hx
      · exact hb x hx
      · exact List.mem_singleton.1 hx
    · intro hcontra
      have : rowUnf endIdx t c s = true := hcontra
      rw [hunf] at this
      exact absurd this (by simp)

theorem mem_zipWith {α β γ : Type} {f : α → β → γ} {la : List α} {lb : List β} {z : γ}
    (h : z ∈ List.zipWith f la lb) : ∃ x y, x ∈ la ∧ y ∈ lb ∧ z = f x y := by
  induction la generalizing lb with
  | nil => simp at h
  | cons x xs ih =>
    cases lb with
    | nil => simp at h
    | cons y ys =>
      rw [List.zipWith_cons_cons] at h
      rcases List.mem_cons.1 h with rfl | h
      · exact ⟨x, y, List.mem_cons_self _ _, List.mem_cons_self _ _, rfl⟩
      · obtain ⟨x', y', hx, hy, hz⟩ := ih h
        exact ⟨x', y', List.mem_cons_of_mem _ hx, List.mem_cons_of_mem _ hy, hz⟩

theorem daeLoop_inv (endIdx : ℕ) (choices : List (List ℕ → ℕ × ℚ)) :
    ∀ (fuel t : ℕ) (states : List RowState),
    (∀ s ∈ states, RowInv s) → (t = 0 → ∀ s ∈ states, s.unfinished = true) →
    ∀ s ∈ daeLoop endIdx choices t fuel states, RowInv s := by
  intro fuel
  induction fuel with
  | zero => intro t states hinv _ s hs; exact hinv s hs
  | succ f ih =>
    intro t states hinv h0 s hs
    rw [daeLoop] at hs
    have hstep : ∀ s' ∈ List.zipWith (fun c s => rowStep endIdx t c s) choices states,
        RowInv s' := by
      intro s' hs'
      obtain ⟨c, st, _, hst, rfl⟩ := mem_zipWith hs'
      exact rowStep_inv endIdx t c st (hinv st hst) (fun he => h0 he st hst)
    by_cases hall : (List.zipWith (fun c s => rowStep endIdx t c s) choices states).all
        (fun s => !s.unfinished) = true
    · rw [if_pos hall] at hs
      exact hstep s hs
    · rw [if_neg hall] at hs
      exact ih (t + 1) _ hstep (by omega) s hs

/-- Claim C3: in every sequence tensor returned by `DAE.forward` (any decode
mode), once a row position holds 0, every later position in that row holds 0. -/
theorem daeForward_zeroTail (endIdx maxLen : ℕ) (sampleMax sampleRl : Bool)
    (rows : List RowModel) (row : List ℕ)
    (hrow : row ∈ (daeForward endIdx maxLen sampleMax sampleRl rows).1) :
    ZeroTail row := by
  unfold daeForward at hrow
  simp only [List.mem_map] at hrow
  obtain ⟨s, hs, rfl⟩ := hrow
  apply rowInv_padTo
  apply daeLoop_inv endIdx _ maxLen 0 _ ?_ ?_ s hs
  · intro s' hs'
    obtain ⟨_, _, rfl⟩ := List.mem_map.1 hs'
    exact ⟨[], [], rfl, by simp, by simp, fun _ => rfl⟩
  · intro _ s' hs'
    obtain ⟨_, _, rfl⟩ := List.mem_map.1 hs'
    rfl

/-- Witness for C3: the row stored for the forced choice sequence 3,4,2. -/
theorem daeForward_zeroTail_witness :
    ZeroTail ((daeForward 2 18 true false
      [⟨fun h => [3, 4, 2].getD h.length 0, fun _ => 0,
        fun h => [3, 4, 2].getD h.length 0, fun _ => 0⟩]).1.getD 0 []) := by
  apply daeForward_zeroTail 2 18 true false
  have : (daeForward 2 18 true false
      [⟨fun h => [3, 4, 2].getD h.length 0, fun _ => 0,
        fun h => [3, 4, 2].getD h.length 0, fun _ => 0⟩]).1
      = [[3, 4, 0, 0, 0, 0, 0, 0, 0, 0, 0, 0, 0, 0, 0, 0, 0, 0]] := by decide
  rw [this]
  decide

/-- Claim C8: with vocabulary pad 0, start 1, end 2, a 3, dog 4 and the
decoder forced to choose tokens 3, 4, 2, the stored sequence is
3, 4 followed by zeros, and its scoring string is the string 3-space-4-space-0. -/
theorem daeForward_scenario :
    (daeForward 2 18 true false
      [⟨fun h => [3, 4, 2].getD h.length 0, fun _ => 0,
        fun h => [3, 4, 2].getD h.length 0, fun _ => 0⟩]).1
      = [[3, 4, 0, 0, 0, 0, 0, 0, 0, 0, 0, 0, 0, 0, 0, 0, 0, 0]] ∧
    array_to_str [3, 4, 0, 0, 0, 0, 0, 0, 0, 0, 0, 0, 0, 0, 0, 0, 0, 0] = "3 4 0" :=
  ⟨by decide, by decide⟩

/-- Claim C10: with both `sample_max` and `sample_rl` set, the sampling
branch overwrites the greedy branch's token and log-probability at every
timestep, so the outputs coincide with the `sample_rl`-only call under the
same random draws. -/
theorem daeForward_sample_overwrites (endIdx maxLen : ℕ) (rows : List RowModel) :
    daeForward endIdx maxLen true true rows = daeForward endIdx maxLen false true rows := by
  have h : rowChoice true true = rowChoice false true := by
    funext r hist
    rfl
  unfold daeForward
  rw [h]

/-! ### CaptionEncoder validity mask (`CaptionEncoder.forward`)

The bidirectional LSTM is abstracted as an arbitrary feature map from a
source row and a position to a feature vector; `pad_packed_sequence`
guarantees that positions at or past the stored valid length are exact zero
vectors, which is embedded directly. -/

/-- The padded LSTM output tensor: real features below the valid length,
zero rows at padded positions, padded to the longest length in the batch. -/
def encOutputs (lstm : List ℕ → ℕ → List ℚ) (fdim : ℕ)
    (src : List (List ℕ)) (lens : List ℕ) : List (List (List ℚ)) :=
  (List.range src.length).map (fun b =>
    (List.range (lens.foldr max 0)).map (fun t =>
      if t < lens.getD b 0 then lstm (src.getD b []) t else List.replicate fdim 0))

/-- `prev_cap_mask = ((outputs.sum(2)) != 0).float()`. -/
def prevCapMask (outputs : List (List (List ℚ))) : List (List ℚ) :=
  outputs.map (fun rows => rows.map (fun r => if r.sum ≠ 0 then (1 : ℚ) else 0))

/-- Claim C5 counterexample: a (zero-weight) recurrent map whose features on
a real timestep sum to zero makes the derived mask 0 at a position below the
valid length, so the mask does not always equal the indicator of
position < length. -/
theorem prevCapMask_not_length_mask :
    prevCapMask (encOutputs (fun _ _ => [0]) 1 [[5]] [1]) = [[0]] ∧
    ([[(0 : ℚ)]] : List (List ℚ)) ≠ [[1]] ∧
    (0 : ℕ) < ([1] : List ℕ).getD 0 0 := by
  refine ⟨?_, by decide, by decide⟩
  norm_num [prevCapMask, encOutputs, List.range_succ]

/-- Claim C5 (amended): whenever every real timestep's feature row has a
nonzero sum, the derived mask equals 1 exactly at positions below the valid
length and 0 elsewhere. -/
theorem prevCapMask_spec (lstm : List ℕ → ℕ → List ℚ) (fdim : ℕ)
    (src : List (List ℕ)) (lens : List ℕ)
    (hval : ∀ b t, b < src.length → t < lens.getD b 0 → (lstm (src.getD b []) t).sum ≠ 0)
    (b t : ℕ) (hb : b < src.length) (ht : t < lens.foldr max 0) :
    ((prevCapMask (encOutputs lstm fdim src lens)).getD b []).getD t 0 =
      if t < lens.getD b 0 then 1 else 0 := by
  unfold prevCapMask encOutputs
  rw [List.map_map]
  rw [mapRange_getD _ _ _ _ hb]
  simp only [Function.comp]
  rw [List.map_map, mapRange_getD _ _ _ _ ht]
  simp only [Function.comp]
  by_cases hlt : t < lens.getD b 0
  · simp only [if_pos hlt]
    exact if_pos (hval b t hb hlt)
  · simp only [if_neg hlt]
    exact if_neg (by simp)

/-- Witness for the amended C5 at a concrete batch. -/
theorem prevCapMask_spec_witness :
    ((prevCapMask (encOutputs (fun _ _ => [1]) 1 [[5, 6]] [1])).getD 0 []).getD 0 0
      = if (0 : ℕ) < ([1] : List ℕ).getD 0 0 then 1 else 0 :=
  prevCapMask_spec (fun _ _ => [1]) 1 [[5, 6]] [1]
    (fun _ _ _ _ => by norm_num) 0 0 (by decide) (by decide)

/-! ### Beam-search control flow (`evaluate`)

The loop is abstracted by its effect on the live beam width: a completion
schedule gives how many hypotheses emit the end token at each step.  Each
iteration removes the completed hypotheses, exits when the beam is empty,
and otherwise checks the step cap (after the emptiness check) and stops
with the degenerate flag once the step exceeds 50. -/

/-- The beam loop on (fuel, live beam width, step counter); returns the
final beam width, the final step and the degenerate flag.  The fuel is a
structural-recursion bound only: 52 units are enough for the capped loop. -/
def beamLoopF (c : ℕ → ℕ) : ℕ → ℕ → ℕ → ℕ × ℕ × Bool
  | 0, k, step => (k, step, false)
  | fuel + 1, k, step =>
    if k - c step = 0 then (0, step, false)
    else if 50 < step then (k - c step, step, true)
    else beamLoopF c fuel (k - c step) (step + 1)

/-- The beam loop started at step 1 with beam width `k`. -/
def beamLoop (c : ℕ → ℕ) (k : ℕ) : ℕ × ℕ × Bool := beamLoopF c 52 k 1

/-- The degenerate fallback `seq = seqs[0][:18]`. -/
def beamFallback (seqs : List (List ℕ)) : List ℕ := (seqs.getD 0 []).take 18

/-- Total completions over steps `s..n`. -/
def csum (c : ℕ → ℕ) (s n : ℕ) : ℕ := ((List.range' s (n + 1 - s)).map c).sum

theorem beamLoopF_never_end (c : ℕ → ℕ) (hc : ∀ s, c s = 0) :
    ∀ (fuel step k : ℕ), 0 < k → step ≤ 51 → 51 - step < fuel →
    beamLoopF c fuel k step = (k, 51, true) := by
  intro fuel
  induction fuel with
  | zero => omega
  | succ f ih =>
    intro step k hk hstep hfuel
    rw [beamLoopF, hc step, Nat.sub_zero]
    rw [if_neg (by omega)]
    by_cases h50 : 50 < step
    · rw [if_pos h50]
      have : step = 51 := by omega
      rw [this]
    · rw [if_neg h50]
      exact ih (step + 1) k hk (by omega) (by omega)

theorem csum_single (c : ℕ → ℕ) (s : ℕ) : csum c s s = c s := by
  unfold csum
  have : s + 1 - s = 1 := by omega
  rw [this]
  simp

theorem csum_split (c : ℕ → ℕ) (s n : ℕ) (h : s ≤ n) :
    csum c s n = c s + csum c (s + 1) n := by
  unfold csum
  have h1 : n + 1 - s = (n + 1 - (s + 1)) + 1 := by omega
  rw [h1, List.range'_succ]
  simp

theorem beamLoopF_all_complete (c : ℕ → ℕ) :
    ∀ (fuel step k n : ℕ), 0 < k → step ≤ n → n ≤ 51 → k ≤ csum c step n →
    n - step < fuel →
    (beamLoopF c fuel k step).1 = 0 ∧ (beamLoopF c fuel k step).2.2 = false := by
  intro fuel
  induction fuel with
  | zero => omega
  | succ f ih =>
    intro step k n hk hsn hn hcsum hfuel
    rw [beamLoopF]
    by_cases hz : k - c step = 0
    · rw [if_pos hz]
      exact ⟨rfl, rfl⟩
    · rw [if_neg hz]
      have hlt : c step < k := by omega
      have hne : step ≠ n := by
        intro he
        subst he
        rw [csum_single] at hcsum
        omega
      have hstep50 : ¬(50 < step) := by omega
      rw [if_neg hstep50]
      refine ih (step + 1) (k - c step) n (by omega) (by omega) hn ?_ (by omega)
      have := csum_split c step n (by omega)
      omega

/-- Claim C6 counterexample: with beam width 2 and a schedule where one
hypothesis completes at step 1 (within the cap) and no other ever completes,
the loop does not end with an empty beam: it ends at step 51 via the cap
with one live hypothesis and the degenerate flag set. -/
theorem beamLoop_partial_complete_not_empty :
    beamLoop (fun s => if s = 1 then 1 else 0) 2 = (1, 51, true) ∧
    (1 : ℕ) ≤ (fun s => if s = 1 then 1 else 0) 1 ∧
    (beamLoop (fun s => if s = 1 then 1 else 0) 2).1 ≠ 0 :=
  ⟨by decide, by decide, by decide⟩

/-- Claim C6 (amended): with a decoder that never emits the end token the
loop stops at exactly step 51 with the degenerate flag set and the beam
intact, and the fallback emits the first live hypothesis truncated to 18
tokens; when ALL `k` hypotheses complete by the cap, the loop instead ends
with an empty beam and the flag unset. -/
theorem beamLoop_spec :
    (∀ k : ℕ, 0 < k → beamLoop (fun _ => 0) k = (k, 51, true)) ∧
    (∀ (c : ℕ → ℕ) (k n : ℕ), 0 < k → 1 ≤ n → n ≤ 51 → k ≤ csum c 1 n →
      (beamLoop c k).1 = 0 ∧ (beamLoop c k).2.2 = false) ∧
    (∀ seqs : List (List ℕ),
      (beamFallback seqs).length ≤ 18 ∧ beamFallback seqs <+: seqs.getD 0 []) := by
  refine ⟨?_, ?_, ?_⟩
  · intro k hk
    exact beamLoopF_never_end _ (fun _ => rfl) 52 1 k hk (by omega) (by omega)
  · intro c k n hk hn1 hn hcsum
    exact beamLoopF_all_complete c 52 1 k n hk hn1 hn hcsum (by omega)
  · intro seqs
    refine ⟨?_, List.take_prefix _ _⟩
    show (List.take 18 (seqs.getD 0 [])).length ≤ 18
    rw [List.length_take]
    omega

/-- Witness for the amended C6 at concrete schedules. -/
theorem beamLoop_spec_witness :
    beamLoop (fun _ => 0) 3 = (3, 51, true) ∧
    ((beamLoop (fun _ => 1) 2).1 = 0 ∧ (beamLoop (fun _ => 1) 2).2.2 = false) ∧
    ((beamFallback [[1, 2, 3]]).length ≤ 18 ∧ beamFallback [[1, 2, 3]] <+: [1, 2, 3]) :=
  ⟨beamLoop_spec.1 3 (by decide),
   beamLoop_spec.2.1 (fun _ => 1) 2 2 (by decide) (by decide) (by decide) (by decide),
   beamLoop_spec.2.2 [[1, 2, 3]]⟩

/-! ### Beam-search index arithmetic (`evaluate`, top-k selection)

`scores.view(-1).topk(k)` over the flattened k x vocab_size score tensor is
embedded as an index-returning top-k selection; the recovered beam-origin
and next-token indices are the flattened index divided by and reduced
modulo the vocabulary size. -/

/-- The flattened score tensor `scores.view(-1)`. -/
def flattenScores (scores : List (List ℚ)) : List ℚ := scores.flatten

/-- Select a maximal pair (first occurrence on ties) and return the rest. -/
def selectMax : List (ℕ × ℚ) → Option ((ℕ × ℚ) × List (ℕ × ℚ))
  | [] => none
  | p :: rest =>
    match selectMax rest with
    | none => some (p, [])
    | some (q, rest') => if p.2 < q.2 then some (q, p :: rest') else some (p, rest)

/-- Indices of the k largest entries, in decreasing order of value. -/
def topkAux : ℕ → List (ℕ × ℚ) → List ℕ
  | 0, _ => []
  | k + 1, l =>
    match selectMax l with
    | none => []
    | some (p, rest) => p.1 :: topkAux k rest

/-- `topk(k)` on a flat vector, returning the selected indices. -/
def topkIdx (k : ℕ) (xs : List ℚ) : List ℕ := topkAux k xs.enum

theorem selectMax_eq_none : ∀ (l : List (ℕ × ℚ)), selectMax l = none → l = []
  | [], _ => rfl
  | a :: t, h => by
    rcases hu : selectMax t with _ | ⟨q, r⟩
    · simp only [selectMax, hu] at h
      exact Option.noConfusion h
    · simp only [selectMax, hu] at h
      split at h <;> simp at h

theorem selectMax_perm : ∀ (l : List (ℕ × ℚ)) (p : ℕ × ℚ) (rest : List (ℕ × ℚ)),
    selectMax l = some (p, rest) → l.Perm (p :: rest)
  | [], p, rest => by intro h; simp [selectMax] at h
  | a :: t, p, rest => by
    intro h
    rcases ht : selectMax t with _ | ⟨q, rest'⟩
    · have htnil : t = [] := selectMax_eq_none t ht
      simp only [selectMax, ht, Option.some.injEq, Prod.mk.injEq] at h
      obtain ⟨rfl, rfl⟩ := h
      subst htnil
      exact List.Perm.refl _
    · have hperm := selectMax_perm t q rest' ht
      simp only [selectMax, ht] at h
      by_cases hlt : a.2 < q.2
      · rw [if_pos hlt] at h
        simp only [Option.some.injEq, Prod.mk.injEq] at h
        obtain ⟨rfl, rfl⟩ := h
        exact (List.Perm.cons a hperm).trans (List.Perm.swap q a rest')
      · rw [if_neg hlt] at h
        simp only [Option.some.injEq, Prod.mk.injEq] at h
        obtain ⟨rfl, rfl⟩ := h
        exact List.Perm.refl _

theorem selectMax_max : ∀ (l : List (ℕ × ℚ)) (p : ℕ × ℚ) (rest : List (ℕ × ℚ)),
    selectMax l = some (p, rest) → ∀ q ∈ l, q.2 ≤ p.2
  | [], p, rest => by intro h; simp [selectMax] at h
  | a :: t, p, rest => by
    intro h q hq
    rcases ht : selectMax t with _ | ⟨q0, rest'⟩
    · have htnil : t = [] := selectMax_eq_none t ht
      simp only [selectMax, ht, Option.some.injEq, Prod.mk.injEq] at h
      obtain ⟨rfl, rfl⟩ := h
      subst htnil
      rw [List.mem_singleton.1 hq]
    · have hmax := selectMax_max t q0 rest' ht
      simp only [selectMax, ht] at h
      by_cases hlt : a.2 < q0.2
      · rw [if_pos hlt] at h
        simp only [Option.some.injEq, Prod.mk.injEq] at h
        obtain ⟨rfl, rfl⟩ := h
        rcases List.mem_cons.1 hq with rfl | hq
        · exact le_of_lt hlt
        · exact hmax q hq
      · rw [if_neg hlt] at h
        simp only [Option.some.injEq, Prod.mk.injEq] at h
        obtain ⟨rfl, rfl⟩ := h
        rcases List.mem_cons.1 hq with rfl | hq
        · exact le_refl _
        · exact le_trans (hmax q hq) (not_lt.1 hlt)

theorem selectMax_mem (l : List (ℕ × ℚ)) (p : ℕ × ℚ) (rest : List (ℕ × ℚ))
    (h : selectMax l = some (p, rest)) : p ∈ l :=
  (selectMax_perm l p rest h).symm.subset (List.mem_cons_self _ _)

theorem topkAux_spec : ∀ (k : ℕ) (l : List (ℕ × ℚ)) (i : ℕ), i ∈ topkAux k l →
    ∃ p ∈ l, p.1 = i ∧ ∀ q ∈ l, q.1 ∉ topkAux k l → q.2 ≤ p.2
  | 0, l, i => by intro h; simp [topkAux] at h
  | k + 1, l, i => by
    intro h
    rw [topkAux] at h
    rcases hs : selectMax l with _ | ⟨p, rest⟩
    · rw [hs] at h
      simp at h
    · rw [hs] at h
      rcases List.mem_cons.1 h with rfl | htail
      · refine ⟨p, selectMax_mem l p rest hs, rfl, ?_⟩
        intro q hq _
        exact selectMax_max l p rest hs q hq
      · obtain ⟨p', hp'rest, hp'i, hp'max⟩ := topkAux_spec k rest i htail
        have hperm := selectMax_perm l p rest hs
        refine ⟨p', hperm.symm.subset (List.mem_cons_of_mem _ hp'rest), hp'i, ?_⟩
        intro q hq hqnot
        rw [topkAux, hs] at hqnot
        have hq' : q ∈ p :: rest := hperm.subset hq
        rcases List.mem_cons.1 hq' with rfl | hqrest
        · exact absurd (List.mem_cons_self _ _) (by exact hqnot)
        · exact hp'max q hqrest (fun hmem => hqnot (List.mem_cons_of_mem _ hmem))

theorem mem_enum_of_lt {α : Type} (xs : List α) (g : ℕ) (d : α) (hg : g < xs.length) :
    (g, xs.getD g d) ∈ xs.enum := by
  have hge : g < xs.enum.length := by simpa using hg
  have h1 : xs.enum[g] = (g, xs[g]) := by
    simp [List.getElem_enum]
  rw [List.getD_eq_getElem _ _ hg, ← h1]
  exact List.getElem_mem _

theorem enum_mem_bounds {α : Type} (xs : List α) (p : ℕ × α) (hp : p ∈ xs.enum) (d : α) :
    p.1 < xs.length ∧ xs.getD p.1 d = p.2 := by
  obtain ⟨i, hi, hget⟩ := List.mem_iff_getElem.1 hp
  have hi' : i < xs.length := by simpa using hi
  rw [List.getElem_enum] at hget
  constructor
  · rw [← hget]
    exact hi'
  · rw [← hget]
    exact List.getD_eq_getElem xs d hi'

theorem flatten_length_uniform (scores : List (List ℚ)) (V : ℕ)
    (h : ∀ row ∈ scores, row.length = V) :
    scores.flatten.length = scores.length * V := by
  induction scores with
  | nil => simp
  | cons r rest ih =>
    rw [List.flatten_cons, List.length_append, List.length_cons,
      ih (fun row hr => h row (List.mem_cons_of_mem _ hr)), h r (List.mem_cons_self _ _)]
    ring

theorem flatten_getD_uniform (scores : List (List ℚ)) (V : ℕ)
    (h : ∀ row ∈ scores, row.length = V) (hV : 0 < V) :
    ∀ f, f < scores.length * V →
      scores.flatten.getD f 0 = (scores.getD (f / V) []).getD (f % V) 0 ∧
      f / V < scores.length := by
  induction scores with
  | nil => intro f hf; simp at hf
  | cons r rest ih =>
    intro f hf
    have hr : r.length = V := h r (List.mem_cons_self _ _)
    by_cases hfV : f < V
    · have hdiv : f / V = 0 := Nat.div_eq_of_lt hfV
      have hmod : f % V = f := Nat.mod_eq_of_lt hfV
      rw [List.flatten_cons, List.getD_append _ _ _ _ (by omega), hdiv, hmod]
      exact ⟨rfl, by simp⟩
    · have hfV' : V ≤ f := Nat.le_of_not_lt hfV
      obtain ⟨g, rfl⟩ : ∃ g, f = V + g := ⟨f - V, by omega⟩
      have hg : g < rest.length * V := by
        rw [List.length_cons] at hf
        have : (rest.length + 1) * V = rest.length * V + V := by ring
        omega
      have hdiv : (V + g) / V = g / V + 1 := by
        rw [Nat.add_comm V g, Nat.add_div_right _ hV]
      have hmod : (V + g) % V = g % V := Nat.add_mod_left V g
      obtain ⟨ih1, ih2⟩ := ih (fun row hrow => h row (List.mem_cons_of_mem _ hrow)) g hg
      rw [List.flatten_cons, List.getD_append_right _ _ _ _ (by omega), hr,
        Nat.add_sub_cancel_left]
      constructor
      · rw [hdiv, hmod]
        simpa using ih1
      · rw [hdiv, List.length_cons]
        omega

/-- Claim C7: at steps after the first, the k best continuations are the
global top-k of the flattened k x vocab_size cumulative score tensor, and
each selected flattened index decomposes by exact integer arithmetic:
beam-origin `f / V`, next-token `f % V`, with `(f / V) * V + f % V = f` and
the flattened entry at `f` equal to the score of that beam/token pair; at
the first step only row 0 is scored, so every selected index stays below
`V` and its beam-origin is 0. -/
theorem topkIdx_spec (scores : List (List ℚ)) (V k : ℕ)
    (hrows : ∀ row ∈ scores, row.length = V) (hV : 0 < V) :
    (∀ f ∈ topkIdx k (flattenScores scores),
      f < scores.length * V ∧ f / V < scores.length ∧ f % V < V ∧
      (f / V) * V + f % V = f ∧
      (flattenScores scores).getD f 0 = (scores.getD (f / V) []).getD (f % V) 0 ∧
      (∀ g, g < (flattenScores scores).length → g ∉ topkIdx k (flattenScores scores) →
        (flattenScores scores).getD g 0 ≤ (flattenScores scores).getD f 0)) ∧
    (∀ f ∈ topkIdx k (scores.getD 0 []), f < V ∧ f / V = 0) := by
  have hflatlen : (flattenScores scores).length = scores.length * V :=
    flatten_length_uniform scores V hrows
  constructor
  · intro f hf
    obtain ⟨p, hpmem, hpi, hpmax⟩ := topkAux_spec k _ f hf
    obtain ⟨hp1, hp2⟩ := enum_mem_bounds _ p hpmem 0
    rw [hpi] at hp1 hp2
    have hfbound : f < scores.length * V := by rw [← hflatlen]; exact hp1
    obtain ⟨hgetd, hdiv⟩ := flatten_getD_uniform scores V hrows hV f hfbound
    refine ⟨hfbound, hdiv, Nat.mod_lt _ hV, ?_, hgetd, ?_⟩
    · rw [Nat.mul_comm (f / V) V]
      exact Nat.div_add_mod f V
    · intro g hg hgnot
      have hq := hpmax ((g, (flattenScores scores).getD g 0))
        (mem_enum_of_lt _ g 0 hg) hgnot
      rw [← hp2] at hq
      exact hq
  · intro f hf
    obtain ⟨p, hpmem, hpi, _⟩ := topkAux_spec k _ f hf
    obtain ⟨hp1, _⟩ := enum_mem_bounds _ p hpmem 0
    rw [hpi] at hp1
    cases scores with
    | nil => simp at hp1
    | cons r rest =>
      have hr0 : (List.getD (r :: rest) 0 []) = r := rfl
      rw [hr0, hrows r (List.mem_cons_self _ _)] at hp1
      exact ⟨hp1, Nat.div_eq_of_lt hp1⟩

/-- Witness for C7 at a concrete 2 x 2 score tensor. -/
theorem topkIdx_spec_witness :
    (flattenScores [[(1 : ℚ), 3], [2, 0]]).getD 1 0
      = ([[(1 : ℚ), 3], [2, 0]].getD (1 / 2) []).getD (1 % 2) 0 ∧
    1 / 2 < [[(1 : ℚ), 3], [2, 0]].length ∧ 1 % 2 < 2 := by
  have h := (topkIdx_spec [[(1 : ℚ), 3], [2, 0]] 2 2 (by decide) (by decide)).1 1 (by decide)
  exact ⟨h.2.2.2.2.1, h.2.1, h.2.2.1⟩

end DCNetRL
